import Mathlib

/-!
Verification of the mlpack R++-tree descent heuristic
(`RPlusPlusTreeDescentHeuristic::ChooseDescentNode`, from
`r_plus_plus_tree_descent_heuristic_impl.hpp`) and of the midpoint
space-split strategy (`MidpointSpaceSplit::SplitSpace`, declared in
`src/mlpack/core/tree/space_split/midpoint_space_split.hpp`).

Numeric values (coordinates, bound extents, split values) are embedded
as rationals. Machine `size_t` indices are embedded as `Nat`.
-/

namespace MlpackTree

/-- A point: the per-dimension coordinates of one dataset column. -/
abbrev Point := List ℚ

/-- An axis-aligned bounding hyperrectangle: per-dimension (min, max) pairs. -/
abbrev Bound := List (ℚ × ℚ)

/-- Modelled from the spec: the containment predicate `HRectBound::Contains`
(the file `hrectbound.hpp` is not among the sources; the spec states the
test is, for every dimension d, `min_d <= point_d <= max_d`, closed
intervals). -/
def containsB (b : Bound) (p : Point) : Bool :=
  (List.zip b p).all (fun q => decide (q.1.1 ≤ q.2) && decide (q.2 ≤ q.1.2))

/-- The slice of an R++ tree node read by `ChooseDescentNode`: each child's
auxiliary-info outer bound (`Child(i).AuxiliaryInfo().OuterBound()`, in
child order), and the dataset columns (`Dataset()`). -/
structure RppNode where
  childOuterBounds : List Bound
  dataset : List Point

/-- `node->NumChildren()`. -/
def RppNode.NumChildren (node : RppNode) : Nat := node.childOuterBounds.length

/-- `node->Dataset().col(point)`. -/
def RppNode.col (node : RppNode) (point : Nat) : Point :=
  node.dataset.getD point []

/-- The `for (bestIndex = 0; bestIndex < NumChildren; bestIndex++)` scan of
`ChooseDescentNode`: the first index whose bound contains `p`, if any. -/
def descentLoop (bounds : List Bound) (p : Point) : Option Nat :=
  match bounds with
  | [] => none
  | b :: rest =>
      if containsB b p then some 0 else (descentLoop rest p).map (· + 1)

/-- `RPlusPlusTreeDescentHeuristic::ChooseDescentNode(node, point)` with
assertions active: `some i` is a normal return of child index `i`; `none`
models reaching `assert(false)` (abort before the trailing `return 0`). -/
def ChooseDescentNode (node : RppNode) (point : Nat) : Option Nat :=
  descentLoop node.childOuterBounds (node.col point)

/-- The subtree-insertion overload
`ChooseDescentNode(const TreeType*, const TreeType*)` with assertions
active: its body is `assert(false); return 0;`, so with assertions active
every invocation aborts (`none`) and neither argument is read. -/
def ChooseDescentNodeSubtree (_node _insertedNode : RppNode) : Option Nat :=
  none

/-- `ChooseDescentNode(node, point)` with assertions compiled out (NDEBUG):
the failed `assert(false)` is a no-op and the fall-through executes
`return 0`. -/
def ChooseDescentNodeND (node : RppNode) (point : Nat) : Nat :=
  (descentLoop node.childOuterBounds (node.col point)).getD 0

/-- The subtree-insertion overload with assertions compiled out: the body
reduces to `return 0`, reading neither argument. -/
def ChooseDescentNodeSubtreeND (_node _insertedNode : RppNode) : Nat := 0

/-- A splitting hyperplane: an axis-parallel dimension index plus a split
value along that dimension. -/
structure Hyperplane where
  dim : Nat
  splitVal : ℚ
deriving DecidableEq, Repr

/-- The extent (width) of dimension `d` of a bound. -/
def extentAt (bound : Bound) (d : Nat) : ℚ :=
  (bound.getD d (0, 0)).2 - (bound.getD d (0, 0)).1

/-- The widest per-dimension extent of a bound (at least 0). -/
def maxExtent (bound : Bound) : ℚ :=
  (bound.map (fun q => q.2 - q.1)).foldl max 0

/-- The first (lowest) dimension index whose extent equals `m`, if any. -/
def firstWithExtent (bound : Bound) (m : ℚ) : Option Nat :=
  match bound with
  | [] => none
  | q :: rest =>
      if q.2 - q.1 = m then some 0 else (firstWithExtent rest m).map (· + 1)

/-- Modelled from the spec: `MidpointSpaceSplit::SplitSpace` (only the
declaration in `midpoint_space_split.hpp` is among the sources; the
implementation file `midpoint_space_split_impl.hpp` is absent). Per the
spec: choose the dimension with the widest extent `max_d - min_d`,
lowest index winning ties; the split value is the midpoint
`(min_d + max_d) / 2` of that dimension of the bound; if the widest
extent is zero, no valid hyperplane exists and the success flag is false
(`none`). The dataset and point-index arguments do not influence the
axis-parallel result. -/
def SplitSpace (bound : Bound) (_data : List Point) (_points : List Nat) :
    Option Hyperplane :=
  if maxExtent bound ≤ 0 then none
  else
    match firstWithExtent bound (maxExtent bound) with
    | some d =>
        some ⟨d, ((bound.getD d (0, 0)).1 + (bound.getD d (0, 0)).2) / 2⟩
    | none => none

/-- Modelled from the spec: the full procedure view of `SplitSpace`, with the
reference parameters threaded explicitly. The point-index vector is
passed by const reference and never written; the hyperplane out-parameter
keeps its prior value `hyp0` when the split fails. Returns
(success flag, point indices after the call, hyperplane after the call). -/
def SplitSpaceProc (bound : Bound) (data : List Point) (points : List Nat)
    (hyp0 : Hyperplane) : Bool × List Nat × Hyperplane :=
  match SplitSpace bound data points with
  | some h => (true, points, h)
  | none => (false, points, hyp0)

/-! ### Helper lemmas -/

/-- If the descent scan returns `some i`, then `i` is in range, child `i`'s
bound contains the point, and no earlier child's bound does. -/
theorem descentLoop_some {bounds : List Bound} {p : Point} {i : Nat}
    (h : descentLoop bounds p = some i) :
    i < bounds.length ∧ containsB (bounds.getD i []) p = true ∧
      ∀ j, j < i → containsB (bounds.getD j []) p = false := by
  induction bounds generalizing i with
  | nil => simp [descentLoop] at h
  | cons b rest ih =>
    by_cases hc : containsB b p
    · simp only [descentLoop, hc, if_true] at h
      obtain rfl : (0 : Nat) = i := Option.some.inj h
      exact ⟨by simp, by simpa using hc, fun j hj => absurd hj (Nat.not_lt_zero j)⟩
    · simp only [descentLoop, hc, if_false, Bool.false_eq_true,
        Option.map_eq_some'] at h
      obtain ⟨i', hi', rfl⟩ := h
      obtain ⟨h1, h2, h3⟩ := ih hi'
      refine ⟨by simpa using Nat.succ_lt_succ h1, by simpa using h2, ?_⟩
      intro j hj
      cases j with
      | zero => simpa using Bool.eq_false_iff.mpr hc
      | succ j' => simpa using h3 j' (Nat.lt_of_succ_lt_succ hj)

/-- If the descent scan falls through (`none`), no child's bound contains
the point. -/
theorem descentLoop_none {bounds : List Bound} {p : Point}
    (h : descentLoop bounds p = none) :
    ∀ j, j < bounds.length → containsB (bounds.getD j []) p = false := by
  induction bounds with
  | nil => intro j hj; simp at hj
  | cons b rest ih =>
    intro j hj
    by_cases hc : containsB b p
    · simp [descentLoop, hc] at h
    · simp only [descentLoop, hc, if_false, Bool.false_eq_true,
        Option.map_eq_none'] at h
      cases j with
      | zero => simpa using Bool.eq_false_iff.mpr hc
      | succ j' => simpa using ih h j' (Nat.lt_of_succ_lt_succ (by simpa using hj))

/-- If no child's bound contains the point, the scan falls through. -/
theorem descentLoop_eq_none {bounds : List Bound} {p : Point}
    (h : ∀ j, j < bounds.length → containsB (bounds.getD j []) p = false) :
    descentLoop bounds p = none := by
  cases hopt : descentLoop bounds p with
  | none => rfl
  | some i =>
    obtain ⟨h1, h2, _⟩ := descentLoop_some hopt
    rw [h i h1] at h2
    exact absurd h2 (by simp)

/-- The containment test is the per-dimension closed-interval test. -/
theorem containsB_iff_closed : ∀ (b : Bound) (q : Point), b.length = q.length →
    (containsB b q = true ↔ ∀ d, d < b.length →
      (b.getD d (0, 0)).1 ≤ q.getD d 0 ∧ q.getD d 0 ≤ (b.getD d (0, 0)).2) := by
  intro b
  induction b with
  | nil => intro q _; simp [containsB]
  | cons x xs ih =>
    intro q hlen
    cases q with
    | nil => simp at hlen
    | cons y ys =>
      have hlen' : xs.length = ys.length := by simpa using hlen
      simp only [containsB, List.zip_cons_cons, List.all_cons, Bool.and_eq_true,
        decide_eq_true_eq] at *
      constructor
      · rintro ⟨⟨hx1, hx2⟩, hall⟩ d hd
        cases d with
        | zero => simpa using ⟨hx1, hx2⟩
        | succ d' =>
          have := (ih ys hlen').mp hall d' (Nat.lt_of_succ_lt_succ (by simpa using hd))
          simpa using this
      · intro hall
        refine ⟨by simpa using hall 0 (by simp), ?_⟩
        refine (ih ys hlen').mpr ?_
        intro d' hd'
        have := hall (d' + 1) (by simpa using Nat.succ_lt_succ hd')
        simpa using this

/-- A left fold of `max` either keeps the initial value or lands on a list
element. -/
theorem foldl_max_choice (l : List ℚ) : ∀ a : ℚ,
    l.foldl max a = a ∨ l.foldl max a ∈ l := by
  induction l with
  | nil => intro a; left; rfl
  | cons x xs ih =>
    intro a
    rcases ih (max a x) with h | h
    · rw [List.foldl_cons]
      rcases max_choice a x with h' | h'
      · left; rw [h, h']
      · right; rw [h, h']; exact List.mem_cons_self x xs
    · right
      rw [List.foldl_cons]
      exact List.mem_cons_of_mem x h

/-- The initial value is below a left fold of `max`. -/
theorem le_foldl_max (l : List ℚ) : ∀ a : ℚ, a ≤ l.foldl max a := by
  induction l with
  | nil => intro a; exact le_refl a
  | cons x xs ih =>
    intro a
    exact le_trans (le_max_left a x) (ih (max a x))

/-- Every list element is below a left fold of `max`. -/
theorem mem_le_foldl_max (l : List ℚ) : ∀ a x, x ∈ l → x ≤ l.foldl max a := by
  induction l with
  | nil => intro a x hx; simp at hx
  | cons y ys ih =>
    intro a x hx
    rw [List.foldl_cons]
    rcases List.mem_cons.mp hx with rfl | hx'
    · exact le_trans (le_max_right a x) (le_foldl_max ys (max a x))
    · exact ih (max a y) x hx'

/-- If `firstWithExtent` returns `some d`, then `d` is in range, dimension
`d` has extent `m`, and every lower dimension does not. -/
theorem firstWithExtent_some {bound : Bound} {m : ℚ} {d : Nat}
    (h : firstWithExtent bound m = some d) :
    d < bound.length ∧ extentAt bound d = m ∧
      ∀ j, j < d → extentAt bound j ≠ m := by
  induction bound generalizing d with
  | nil => simp [firstWithExtent] at h
  | cons q rest ih =>
    by_cases hq : q.2 - q.1 = m
    · simp only [firstWithExtent, hq, if_true] at h
      obtain rfl : (0 : Nat) = d := Option.some.inj h
      exact ⟨by simp, by simpa [extentAt] using hq,
        fun j hj => absurd hj (Nat.not_lt_zero j)⟩
    · simp only [firstWithExtent, hq, if_false, Option.map_eq_some'] at h
      obtain ⟨d', hd', rfl⟩ := h
      obtain ⟨h1, h2, h3⟩ := ih hd'
      refine ⟨by simpa using Nat.succ_lt_succ h1, by simpa [extentAt] using h2, ?_⟩
      intro j hj
      cases j with
      | zero => simpa [extentAt] using hq
      | succ j' => simpa [extentAt] using h3 j' (Nat.lt_of_succ_lt_succ hj)

/-- If `firstWithExtent` finds nothing, no dimension has extent `m`. -/
theorem firstWithExtent_none {bound : Bound} {m : ℚ}
    (h : firstWithExtent bound m = none) :
    ∀ j, j < bound.length → extentAt bound j ≠ m := by
  induction bound with
  | nil => intro j hj; simp at hj
  | cons q rest ih =>
    intro j hj
    by_cases hq : q.2 - q.1 = m
    · simp [firstWithExtent, hq] at h
    · simp only [firstWithExtent, hq, if_false, Option.map_eq_none'] at h
      cases j with
      | zero => simpa [extentAt] using hq
      | succ j' =>
        simpa [extentAt] using ih h j' (Nat.lt_of_succ_lt_succ (by simpa using hj))

/-- `maxExtent` is nonnegative. -/
theorem maxExtent_nonneg (bound : Bound) : 0 ≤ maxExtent bound :=
  le_foldl_max _ 0

/-- `maxExtent` bounds every dimension's extent from above. -/
theorem extentAt_le_maxExtent {bound : Bound} {j : Nat} (hj : j < bound.length) :
    extentAt bound j ≤ maxExtent bound := by
  have hmem : (bound.getD j (0, 0)).2 - (bound.getD j (0, 0)).1 ∈
      bound.map (fun q => q.2 - q.1) := by
    rw [List.getD_eq_getElem _ _ hj]
    exact List.mem_map.mpr ⟨bound[j], List.getElem_mem hj, rfl⟩
  exact mem_le_foldl_max _ 0 _ hmem

/-- If `maxExtent` is positive, it is achieved at some dimension. -/
theorem maxExtent_achieved {bound : Bound} (h : 0 < maxExtent bound) :
    ∃ j, j < bound.length ∧ extentAt bound j = maxExtent bound := by
  rcases foldl_max_choice (bound.map (fun q => q.2 - q.1)) 0 with h0 | hmem
  · rw [maxExtent, h0] at h
    exact absurd h (lt_irrefl 0)
  · obtain ⟨q, hq, hqe⟩ := List.mem_map.mp hmem
    obtain ⟨j, hj, hje⟩ := List.mem_iff_getElem.mp hq
    refine ⟨j, hj, ?_⟩
    rw [extentAt, List.getD_eq_getElem _ _ hj, hje, hqe]
    rfl

/-! ### Claims about ChooseDescentNode -/

/-- C1: for every node whose children's outer bounds form a partition of the
space reachable from the node (here: the point lies in exactly one child's
outer bound) and every point inside the node's region, `ChooseDescentNode`
returns a child index `i` in `[0, NumChildren())` such that the point lies
within child `i`'s outer bound, and no other child's outer bound contains
the point. -/
theorem c1_descent_coverage (node : RppNode) (point : Nat)
    (hpart : ∃! i, i < node.NumChildren ∧
      containsB (node.childOuterBounds.getD i []) (node.col point) = true) :
    ∃ i, ChooseDescentNode node point = some i ∧ i < node.NumChildren ∧
      containsB (node.childOuterBounds.getD i []) (node.col point) = true ∧
      ∀ j, j < node.NumChildren → j ≠ i →
        containsB (node.childOuterBounds.getD j []) (node.col point) = false := by
  obtain ⟨i0, ⟨hi0lt, hi0c⟩, huniq⟩ := hpart
  cases hopt : ChooseDescentNode node point with
  | none =>
    have hall := descentLoop_none hopt
    rw [hall i0 hi0lt] at hi0c
    exact absurd hi0c (by simp)
  | some i =>
    obtain ⟨hlt, hc, _⟩ := descentLoop_some hopt
    refine ⟨i, rfl, hlt, hc, ?_⟩
    intro j hj hne
    cases hb : containsB (node.childOuterBounds.getD j []) (node.col point) with
    | false => rfl
    | true =>
      have hji : j = i0 := huniq j ⟨hj, hb⟩
      have hii : i = i0 := huniq i ⟨hlt, hc⟩
      exact absurd (hji.trans hii.symm) hne

/-- Witness for C1 at a concrete two-child node: children with outer bounds
[(0,1)] and [(2,3)], point (0). -/
theorem c1_descent_coverage_witness :
    (∃! i, i < (RppNode.mk [[((0 : ℚ), 1)], [(2, 3)]] [[0]]).NumChildren ∧
      containsB ((RppNode.mk [[((0 : ℚ), 1)], [(2, 3)]] [[0]]).childOuterBounds.getD i [])
        ((RppNode.mk [[((0 : ℚ), 1)], [(2, 3)]] [[0]]).col 0) = true) ∧
    (∃ i, ChooseDescentNode (RppNode.mk [[((0 : ℚ), 1)], [(2, 3)]] [[0]]) 0 = some i ∧
      i < (RppNode.mk [[((0 : ℚ), 1)], [(2, 3)]] [[0]]).NumChildren ∧
      containsB ((RppNode.mk [[((0 : ℚ), 1)], [(2, 3)]] [[0]]).childOuterBounds.getD i [])
        ((RppNode.mk [[((0 : ℚ), 1)], [(2, 3)]] [[0]]).col 0) = true ∧
      ∀ j, j < (RppNode.mk [[((0 : ℚ), 1)], [(2, 3)]] [[0]]).NumChildren → j ≠ i →
        containsB ((RppNode.mk [[((0 : ℚ), 1)], [(2, 3)]] [[0]]).childOuterBounds.getD j [])
          ((RppNode.mk [[((0 : ℚ), 1)], [(2, 3)]] [[0]]).col 0) = false) := by
  have hp : ∃! i, i < (RppNode.mk [[((0 : ℚ), 1)], [(2, 3)]] [[0]]).NumChildren ∧
      containsB ((RppNode.mk [[((0 : ℚ), 1)], [(2, 3)]] [[0]]).childOuterBounds.getD i [])
        ((RppNode.mk [[((0 : ℚ), 1)], [(2, 3)]] [[0]]).col 0) = true := by
    refine ⟨0, ⟨by norm_num [RppNode.NumChildren],
      by norm_num [containsB, RppNode.col]⟩, ?_⟩
    rintro j ⟨hj, hc⟩
    have hj2 : j < 2 := by simpa [RppNode.NumChildren] using hj
    have : j = 0 ∨ j = 1 := by omega
    rcases this with rfl | rfl
    · rfl
    · exact absurd hc (by norm_num [containsB, RppNode.col])
  exact ⟨hp, c1_descent_coverage _ 0 hp⟩

/-- C3: for every node and point such that no child's outer bound contains
the point, `ChooseDescentNode` (with assertions active) reaches
`assert(false)` and aborts — it never returns a fallback child index. -/
theorem c3_descent_invariant_violation_aborts (node : RppNode) (point : Nat)
    (h : ∀ j, j < node.NumChildren →
      containsB (node.childOuterBounds.getD j []) (node.col point) = false) :
    ChooseDescentNode node point = none ∧
      ∀ i : Nat, ChooseDescentNode node point ≠ some i := by
  have h0 : descentLoop node.childOuterBounds (node.col point) = none :=
    descentLoop_eq_none h
  exact ⟨h0, fun i hi => Option.noConfusion (h0.symm.trans hi)⟩

/-- Witness for C3 at a one-child node whose bound [(5,6)] misses the
point (0). -/
theorem c3_descent_invariant_violation_aborts_witness :
    (∀ j, j < (RppNode.mk [[((5 : ℚ), 6)]] [[0]]).NumChildren →
      containsB ((RppNode.mk [[((5 : ℚ), 6)]] [[0]]).childOuterBounds.getD j [])
        ((RppNode.mk [[((5 : ℚ), 6)]] [[0]]).col 0) = false) ∧
    ChooseDescentNode (RppNode.mk [[((5 : ℚ), 6)]] [[0]]) 0 = none ∧
      ∀ i : Nat, ChooseDescentNode (RppNode.mk [[((5 : ℚ), 6)]] [[0]]) 0 ≠ some i := by
  have h : ∀ j, j < (RppNode.mk [[((5 : ℚ), 6)]] [[0]]).NumChildren →
      containsB ((RppNode.mk [[((5 : ℚ), 6)]] [[0]]).childOuterBounds.getD j [])
        ((RppNode.mk [[((5 : ℚ), 6)]] [[0]]).col 0) = false := by
    intro j hj
    have hj1 : j < 1 := by simpa [RppNode.NumChildren] using hj
    have : j = 0 := by omega
    subst this
    norm_num [containsB, RppNode.col]
  exact ⟨h, c3_descent_invariant_violation_aborts _ 0 h⟩

/-- C5: whenever some child's outer bound contains the point,
`ChooseDescentNode` scans the children in fixed construction order from
index 0 and returns the index of the first child whose outer bound
contains the point, with containment being the closed-interval test
`min_d <= point_d <= max_d` in every dimension. -/
theorem c5_descent_first_match (node : RppNode) (point : Nat)
    (h : ∃ j, j < node.NumChildren ∧
      containsB (node.childOuterBounds.getD j []) (node.col point) = true) :
    (∃ i, ChooseDescentNode node point = some i ∧ i < node.NumChildren ∧
      containsB (node.childOuterBounds.getD i []) (node.col point) = true ∧
      ∀ j, j < i →
        containsB (node.childOuterBounds.getD j []) (node.col point) = false) ∧
    (∀ (b : Bound) (q : Point), b.length = q.length →
      (containsB b q = true ↔ ∀ d, d < b.length →
        (b.getD d (0, 0)).1 ≤ q.getD d 0 ∧ q.getD d 0 ≤ (b.getD d (0, 0)).2)) := by
  refine ⟨?_, containsB_iff_closed⟩
  obtain ⟨j0, hj0, hc0⟩ := h
  cases hopt : ChooseDescentNode node point with
  | none =>
    have hall := descentLoop_none hopt
    rw [hall j0 hj0] at hc0
    exact absurd hc0 (by simp)
  | some i =>
    obtain ⟨hlt, hc, hfirst⟩ := descentLoop_some hopt
    exact ⟨i, rfl, hlt, hc, hfirst⟩

/-- Witness for C5 at a two-child node where both children's bounds contain
the point (0.5): the first (index 0) is returned. -/
theorem c5_descent_first_match_witness :
    (∃ j, j < (RppNode.mk [[((0 : ℚ), 1)], [(0, 2)]] [[1/2]]).NumChildren ∧
      containsB ((RppNode.mk [[((0 : ℚ), 1)], [(0, 2)]] [[1/2]]).childOuterBounds.getD j [])
        ((RppNode.mk [[((0 : ℚ), 1)], [(0, 2)]] [[1/2]]).col 0) = true) ∧
    ((∃ i, ChooseDescentNode (RppNode.mk [[((0 : ℚ), 1)], [(0, 2)]] [[1/2]]) 0 = some i ∧
      i < (RppNode.mk [[((0 : ℚ), 1)], [(0, 2)]] [[1/2]]).NumChildren ∧
      containsB ((RppNode.mk [[((0 : ℚ), 1)], [(0, 2)]] [[1/2]]).childOuterBounds.getD i [])
        ((RppNode.mk [[((0 : ℚ), 1)], [(0, 2)]] [[1/2]]).col 0) = true ∧
      ∀ j, j < i →
        containsB ((RppNode.mk [[((0 : ℚ), 1)], [(0, 2)]] [[1/2]]).childOuterBounds.getD j [])
          ((RppNode.mk [[((0 : ℚ), 1)], [(0, 2)]] [[1/2]]).col 0) = false) ∧
    (∀ (b : Bound) (q : Point), b.length = q.length →
      (containsB b q = true ↔ ∀ d, d < b.length →
        (b.getD d (0, 0)).1 ≤ q.getD d 0 ∧ q.getD d 0 ≤ (b.getD d (0, 0)).2))) := by
  have h : ∃ j, j < (RppNode.mk [[((0 : ℚ), 1)], [(0, 2)]] [[1/2]]).NumChildren ∧
      containsB ((RppNode.mk [[((0 : ℚ), 1)], [(0, 2)]] [[1/2]]).childOuterBounds.getD j [])
        ((RppNode.mk [[((0 : ℚ), 1)], [(0, 2)]] [[1/2]]).col 0) = true :=
    ⟨0, by norm_num [RppNode.NumChildren], by norm_num [containsB, RppNode.col]⟩
  exact ⟨h, c5_descent_first_match _ 0 h⟩

/-- C6: the subtree-insertion overload `ChooseDescentNode(node, insertedNode)`
is unsupported: with assertions active, every invocation hits
`assert(false)` and aborts, never returning a usable child index. -/
theorem c6_subtree_overload_always_aborts (node insertedNode : RppNode) :
    ChooseDescentNodeSubtree node insertedNode = none ∧
      ∀ i : Nat, ChooseDescentNodeSubtree node insertedNode ≠ some i :=
  ⟨rfl, fun _ hi => Option.noConfusion hi⟩

/-- C8: `ChooseDescentNode` is a deterministic pure function of the node's
state and the point: identical inputs give identical child indices (in
both the assertion-active and NDEBUG embeddings); the embedding returns
only the index, leaving node, children and dataset untouched. -/
theorem c8_descent_deterministic (n1 n2 : RppNode) (p1 p2 : Nat)
    (hn : n1 = n2) (hp : p1 = p2) :
    ChooseDescentNode n1 p1 = ChooseDescentNode n2 p2 ∧
      ChooseDescentNodeND n1 p1 = ChooseDescentNodeND n2 p2 := by
  subst hn
  subst hp
  exact ⟨rfl, rfl⟩

/-- Witness for C8: two calls at the same concrete node and point. -/
theorem c8_descent_deterministic_witness :
    ChooseDescentNode (RppNode.mk [[((0 : ℚ), 1)]] [[0]]) 0 =
      ChooseDescentNode (RppNode.mk [[((0 : ℚ), 1)]] [[0]]) 0 ∧
    ChooseDescentNodeND (RppNode.mk [[((0 : ℚ), 1)]] [[0]]) 0 =
      ChooseDescentNodeND (RppNode.mk [[((0 : ℚ), 1)]] [[0]]) 0 :=
  c8_descent_deterministic _ _ 0 0 rfl rfl

/-- C10: with assertions compiled out (NDEBUG), both overloads are total and
return 0 on the fall-through path: `ChooseDescentNodeND` returns 0
whenever no child's outer bound contains the point (including a node with
zero children), and the subtree overload returns 0 for every input,
reading neither argument. -/
theorem c10_ndebug_fallthrough_returns_zero (node : RppNode) (point : Nat)
    (h : ∀ j, j < node.NumChildren →
      containsB (node.childOuterBounds.getD j []) (node.col point) = false) :
    ChooseDescentNodeND node point = 0 ∧
      ∀ n1 ins1 n2 ins2 : RppNode,
        ChooseDescentNodeSubtreeND n1 ins1 = 0 ∧
        ChooseDescentNodeSubtreeND n1 ins1 = ChooseDescentNodeSubtreeND n2 ins2 := by
  refine ⟨?_, fun n1 ins1 n2 ins2 => ⟨rfl, rfl⟩⟩
  unfold ChooseDescentNodeND
  rw [descentLoop_eq_none h]
  rfl

/-- Witness for C10 at a node with zero children. -/
theorem c10_ndebug_fallthrough_returns_zero_witness :
    (∀ j, j < (RppNode.mk [] [[(0 : ℚ)]]).NumChildren →
      containsB ((RppNode.mk [] [[(0 : ℚ)]]).childOuterBounds.getD j [])
        ((RppNode.mk [] [[(0 : ℚ)]]).col 0) = false) ∧
    ChooseDescentNodeND (RppNode.mk [] [[(0 : ℚ)]]) 0 = 0 ∧
      ∀ n1 ins1 n2 ins2 : RppNode,
        ChooseDescentNodeSubtreeND n1 ins1 = 0 ∧
        ChooseDescentNodeSubtreeND n1 ins1 = ChooseDescentNodeSubtreeND n2 ins2 := by
  have h : ∀ j, j < (RppNode.mk [] [[(0 : ℚ)]]).NumChildren →
      containsB ((RppNode.mk [] [[(0 : ℚ)]]).childOuterBounds.getD j [])
        ((RppNode.mk [] [[(0 : ℚ)]]).col 0) = false :=
    fun j hj => absurd hj (Nat.not_lt_zero j)
  exact ⟨h, c10_ndebug_fallthrough_returns_zero _ 0 h⟩

/-! ### Claims about SplitSpace -/

/-- C2: for every non-degenerate bound (widest extent strictly positive),
non-empty dataset and non-empty point index set, `SplitSpace` succeeds and
produces a hyperplane keyed to the dimension maximizing the bound's
extent (lowest maximizer), with split value the midpoint
`(min_d + max_d) / 2` of that dimension of the bound. -/
theorem c2_split_widest_dim_midpoint (bound : Bound) (data : List Point)
    (points : List Nat) (hpos : 0 < maxExtent bound)
    (hdata : data ≠ []) (hpoints : points ≠ []) :
    ∃ h : Hyperplane, SplitSpace bound data points = some h ∧
      h.dim < bound.length ∧
      extentAt bound h.dim = maxExtent bound ∧
      (∀ j, j < bound.length → extentAt bound j ≤ maxExtent bound) ∧
      (∀ j, j < h.dim → extentAt bound j ≠ maxExtent bound) ∧
      h.splitVal = ((bound.getD h.dim (0, 0)).1 + (bound.getD h.dim (0, 0)).2) / 2 := by
  have hnle : ¬ maxExtent bound ≤ 0 := not_le.mpr hpos
  cases hfw : firstWithExtent bound (maxExtent bound) with
  | none =>
    obtain ⟨j, hj, hje⟩ := maxExtent_achieved hpos
    exact absurd hje (firstWithExtent_none hfw j hj)
  | some d =>
    obtain ⟨h1, h2, h3⟩ := firstWithExtent_some hfw
    refine ⟨⟨d, ((bound.getD d (0, 0)).1 + (bound.getD d (0, 0)).2) / 2⟩, ?_, h1, h2,
      fun j hj => extentAt_le_maxExtent hj, h3, rfl⟩
    unfold SplitSpace
    rw [if_neg hnle, hfw]

/-- Witness for C2 at the spec's example bound [(0,10), (0,2), (0,5)]:
dimension 0 is selected with split value 5. -/
theorem c2_split_widest_dim_midpoint_witness :
    (0 : ℚ) < maxExtent [((0 : ℚ), 10), (0, 2), (0, 5)] ∧
    ([[(0 : ℚ)]] : List Point) ≠ [] ∧
    ([0] : List Nat) ≠ [] ∧
    SplitSpace [((0 : ℚ), 10), (0, 2), (0, 5)] [[0]] [0] = some ⟨0, 5⟩ ∧
    (∃ h : Hyperplane, SplitSpace [((0 : ℚ), 10), (0, 2), (0, 5)] [[0]] [0] = some h ∧
      h.dim < ([((0 : ℚ), 10), (0, 2), (0, 5)] : Bound).length ∧
      extentAt [((0 : ℚ), 10), (0, 2), (0, 5)] h.dim =
        maxExtent [((0 : ℚ), 10), (0, 2), (0, 5)] ∧
      (∀ j, j < ([((0 : ℚ), 10), (0, 2), (0, 5)] : Bound).length →
        extentAt [((0 : ℚ), 10), (0, 2), (0, 5)] j ≤
          maxExtent [((0 : ℚ), 10), (0, 2), (0, 5)]) ∧
      (∀ j, j < h.dim → extentAt [((0 : ℚ), 10), (0, 2), (0, 5)] j ≠
        maxExtent [((0 : ℚ), 10), (0, 2), (0, 5)]) ∧
      h.splitVal = ((([((0 : ℚ), 10), (0, 2), (0, 5)] : Bound).getD h.dim (0, 0)).1 +
        (([((0 : ℚ), 10), (0, 2), (0, 5)] : Bound).getD h.dim (0, 0)).2) / 2) := by
  refine ⟨by norm_num [maxExtent], by simp, by simp,
    by norm_num [SplitSpace, maxExtent, firstWithExtent], ?_⟩
  exact c2_split_widest_dim_midpoint _ _ _ (by norm_num [maxExtent]) (by simp) (by simp)

/-- C4: for every bound whose widest extent is zero, `SplitSpace` returns
the failure flag (`none`) as a normal outcome: the total function returns
rather than aborting, and the hyperplane out-parameter keeps whatever
prior value it had. -/
theorem c4_split_degenerate_returns_false (bound : Bound) (data : List Point)
    (points : List Nat) (h : maxExtent bound = 0) :
    SplitSpace bound data points = none ∧
      ∀ hyp0 : Hyperplane,
        SplitSpaceProc bound data points hyp0 = (false, points, hyp0) := by
  have hs : SplitSpace bound data points = none := by
    unfold SplitSpace
    rw [if_pos (le_of_eq h)]
  refine ⟨hs, fun hyp0 => ?_⟩
  unfold SplitSpaceProc
  rw [hs]

/-- Witness for C4 at the spec's single-point bound [(3,3), (4,4)]. -/
theorem c4_split_degenerate_returns_false_witness :
    maxExtent [((3 : ℚ), 3), (4, 4)] = 0 ∧
    SplitSpace [((3 : ℚ), 3), (4, 4)] [[0]] [0] = none ∧
      ∀ hyp0 : Hyperplane,
        SplitSpaceProc [((3 : ℚ), 3), (4, 4)] [[0]] [0] hyp0 = (false, [0], hyp0) := by
  have h : maxExtent [((3 : ℚ), 3), (4, 4)] = 0 := by norm_num [maxExtent]
  exact ⟨h, c4_split_degenerate_returns_false _ _ _ h⟩

/-- C7: whenever `SplitSpace` produces a hyperplane, its dimension achieves
the maximal extent and is the lowest index among all dimensions sharing
that maximal extent (deterministic tie-break). -/
theorem c7_split_tie_break_lowest (bound : Bound) (data : List Point)
    (points : List Nat) (h : Hyperplane)
    (hs : SplitSpace bound data points = some h) :
    h.dim < bound.length ∧ extentAt bound h.dim = maxExtent bound ∧
      ∀ j, j < bound.length → extentAt bound j = maxExtent bound → h.dim ≤ j := by
  unfold SplitSpace at hs
  by_cases hle : maxExtent bound ≤ 0
  · rw [if_pos hle] at hs
    exact Option.noConfusion hs
  · rw [if_neg hle] at hs
    cases hfw : firstWithExtent bound (maxExtent bound) with
    | none =>
      rw [hfw] at hs
      exact Option.noConfusion hs
    | some d =>
      rw [hfw] at hs
      obtain ⟨h1, h2, h3⟩ := firstWithExtent_some hfw
      have hh : h = ⟨d, ((bound.getD d (0, 0)).1 + (bound.getD d (0, 0)).2) / 2⟩ :=
        (Option.some.inj hs).symm
      subst hh
      exact ⟨h1, h2, fun j hj hje => not_lt.mp (fun hlt => h3 j hlt hje)⟩

/-- Witness for C7 at the spec's tied bound [(0,10), (0,10)]: dimension 0 is
selected and is at most every tying dimension index. -/
theorem c7_split_tie_break_lowest_witness :
    SplitSpace [((0 : ℚ), 10), (0, 10)] [[0]] [0] = some ⟨0, 5⟩ ∧
    ((⟨0, 5⟩ : Hyperplane).dim < ([((0 : ℚ), 10), (0, 10)] : Bound).length ∧
      extentAt [((0 : ℚ), 10), (0, 10)] (⟨0, 5⟩ : Hyperplane).dim =
        maxExtent [((0 : ℚ), 10), (0, 10)] ∧
      ∀ j, j < ([((0 : ℚ), 10), (0, 10)] : Bound).length →
        extentAt [((0 : ℚ), 10), (0, 10)] j = maxExtent [((0 : ℚ), 10), (0, 10)] →
        (⟨0, 5⟩ : Hyperplane).dim ≤ j) := by
  have hs : SplitSpace [((0 : ℚ), 10), (0, 10)] [[0]] [0] = some ⟨0, 5⟩ := by
    norm_num [SplitSpace, maxExtent, firstWithExtent]
  exact ⟨hs, c7_split_tie_break_lowest _ _ _ _ hs⟩

/-- C9: the point index set passed to `SplitSpace` is unchanged after the
call: the procedure view returns the same vector it received, for every
input and every prior value of the hyperplane out-parameter. -/
theorem c9_split_points_unchanged (bound : Bound) (data : List Point)
    (points : List Nat) (hyp0 : Hyperplane) :
    (SplitSpaceProc bound data points hyp0).2.1 = points := by
  unfold SplitSpaceProc
  cases SplitSpace bound data points <;> rfl

end MlpackTree
